import Mathlib

/-!
Verification development for an L-Store style columnar storage engine.

The query engine (`src/lstore/query.py`) is embedded shallowly below: every
public query operation and its helpers are translated into executable Lean
definitions over an explicit table state.  Supporting structures whose code
is not part of the sources (`Table.insert_record`, the per-column index, the
buffer pool and the configuration constants) are modelled from the
specification; each such definition carries a doc comment starting with
`Modelled from the spec:`.

Conventions of the embedding:
  * Python `None` column arguments become `Option Int` entries.
  * An indirection slot holds `Indir.nullv` (Python `None`),
    `Indir.empty` (the `["empty"]` tombstone) or `Indir.ptr r` (a RID).
  * The buffer pool's page-data dictionaries and the direct page objects
    always hold the same data in the source (every mutation is written to
    both), so pages are stored once; pin counts are kept separately.
  * Python exceptions are modelled with `Except Unit` at the points where
    the source can raise; a `try/except` block that returns a fallback is
    modelled by matching on the `Except` value.
-/

namespace LStore

/-- A record identifier: `(page_range_index, page_index, slot_index, kind)`,
with `tail = true` for kind `"t"` and `tail = false` for kind `"b"`. -/
structure Rid where
  pr : Nat
  pg : Nat
  slot : Nat
  tail : Bool
  deriving DecidableEq, Repr

/-- An indirection slot value: Python `None`, the `["empty"]` tombstone
written by `delete`, or a forward pointer to another RID. -/
inductive Indir where
  | nullv : Indir
  | empty : Indir
  | ptr : Rid → Indir
  deriving DecidableEq, Repr

/-- A base or tail page: `num_columns` physical column lists plus the four
parallel per-slot metadata vectors.  The buffer pool's page-data view and
the direct page object hold the same data in the source, so one structure
represents both. -/
structure Page where
  columns : List (List Int)
  indirection : List Indir
  rids : List Rid
  timestamps : List Nat
  schema : List (List Bool)
  deriving DecidableEq, Repr

/-- A page range: a bounded list of base pages and a growing list of tail
pages. -/
structure PageRange where
  base_pages : List Page
  tail_pages : List Page
  deriving DecidableEq, Repr

/-- The materialized `Record` object `{rid, key, columns}`. -/
structure Record where
  rid : Rid
  key : Int
  columns : List Int
  deriving DecidableEq, Repr

/-- A buffer pool page identifier `("base"|"tail", page_range_index,
page_index)`. -/
structure PageId where
  isBase : Bool
  pr : Nat
  pg : Nat
  deriving DecidableEq, Repr

/-- Modelled from the spec: the per-column index, one bucket list per
column, mapping a value to the list of RIDs currently indexed under it
(`index.py` is not among the sources). -/
abbrev Index := List (List (Int × List Rid))

/-- The whole mutable state a `Query` object reaches: the table fields
(`key`, `num_columns`, `page_ranges`, `page_directory`, `index`,
`merge_counter`) plus the buffer pool pin counts.  The page directory is an
insertion-ordered association list, mirroring a Python dict. -/
structure TState where
  key : Nat
  num_columns : Nat
  page_ranges : List PageRange
  page_directory : List (Rid × Record)
  index : Index
  merge_counter : Nat
  pins : List (PageId × Int)
  deriving DecidableEq, Repr

/-- Modelled from the spec: `PAGE_CAPACITY` K, default 512 (`config.py` is
not among the sources). -/
def PAGE_CAPACITY : Nat := 512

/-- Modelled from the spec: `RANGE_BASE_PAGES` M, default 16. -/
def RANGE_BASE_PAGES : Nat := 16

/-- Modelled from the spec: `MERGE_THRESHOLD`, an implementer-chosen
update count; its value never affects observable results here because the
modelled merge is observation-preserving. -/
def MERGE_THRESHOLD : Nat := 1000

/-- Replace the element at an index, leaving the list unchanged when the
index is out of range. -/
def modifyNth (f : α → α) : Nat → List α → List α
  | _, [] => []
  | 0, a :: as => f a :: as
  | n + 1, a :: as => a :: modifyNth f n as

/-- First record stored under a RID in the page directory (Python dict
lookup). -/
def pdGet (pd : List (Rid × Record)) (r : Rid) : Option Record :=
  (pd.find? fun p => p.1 = r).map fun p => p.2

/-- Python dict assignment `pd[r] = rec`: replace in place when the key
exists, append otherwise. -/
def pdSet (pd : List (Rid × Record)) (r : Rid) (rec : Record) : List (Rid × Record) :=
  if pd.any fun p => p.1 = r then
    pd.map fun p => if p.1 = r then (r, rec) else p
  else pd ++ [(r, rec)]

/-- Python dict deletion `del pd[r]` (a no-op when absent, callers guard
with `in`). -/
def pdDel (pd : List (Rid × Record)) (r : Rid) : List (Rid × Record) :=
  pd.filter fun p => p.1 ≠ r

/-- Modelled from the spec: `index.locate(col, value)` returns all RIDs
whose column maps to the value, empty if none. -/
def locate (idx : Index) (c : Nat) (v : Int) : List Rid :=
  match idx.get? c with
  | none => []
  | some bs => (((bs.find? fun b => b.1 = v).map fun b => b.2).getD [])

/-- Modelled from the spec: `index.insert(value, rid)` on a given column. -/
def indexInsertCol (idx : Index) (c : Nat) (v : Int) (r : Rid) : Index :=
  modifyNth (fun bs =>
    if bs.any fun b => b.1 = v then
      bs.map fun b => if b.1 = v then (b.1, b.2 ++ [r]) else b
    else bs ++ [(v, [r])]) c idx

/-- Modelled from the spec: `index.delete(value, rid)` on a given column,
removing the RID from the value's bucket. -/
def indexDelete (idx : Index) (c : Nat) (v : Int) (r : Rid) : Index :=
  modifyNth (fun bs =>
    bs.map fun b => if b.1 = v then (b.1, b.2.filter fun x => x ≠ r) else b) c idx

/-- Modelled from the spec: `index.locate_range(lo, hi, key_col)` collects
the RIDs of every key-column bucket whose value lies in `[lo, hi]`. -/
def locateRange (st : TState) (lo hi : Int) : List Rid :=
  match st.index.get? st.key with
  | none => []
  | some bs => bs.foldl (fun acc b => if lo ≤ b.1 ∧ b.1 ≤ hi then acc ++ b.2 else acc) []

/-- The base page stored at `(pr, pg)`. -/
def basePageAt (st : TState) (pr pg : Nat) : Option Page :=
  (st.page_ranges.get? pr).bind fun R => R.base_pages.get? pg

/-- The tail page stored at `(pr, pg)`. -/
def tailPageAt (st : TState) (pr pg : Nat) : Option Page :=
  (st.page_ranges.get? pr).bind fun R => R.tail_pages.get? pg

/-- The page a buffer pool page id refers to. -/
def pageAtId (st : TState) (pid : PageId) : Option Page :=
  if pid.isBase then basePageAt st pid.pr pid.pg else tailPageAt st pid.pr pid.pg

/-- The page a RID's own kind refers to. -/
def pageOf (st : TState) (r : Rid) : Option Page :=
  if r.tail then tailPageAt st r.pr r.pg else basePageAt st r.pr r.pg

/-- The indirection entry at a RID's slot, on the page of the RID's kind. -/
def indirAt (st : TState) (r : Rid) : Option Indir :=
  (pageOf st r).bind fun p => p.indirection.get? r.slot

/-- The indirection entry at a RID's slot read from the BASE page at the
RID's coordinates, regardless of the RID's kind — exactly how
`_get_latest_version` and `update` address it. -/
def baseIndirAt (st : TState) (r : Rid) : Option Indir :=
  (basePageAt st r.pr r.pg).bind fun p => p.indirection.get? r.slot

/-- Adjust a pin count entry by a delta, creating the entry if missing. -/
def pinAdj (pins : List (PageId × Int)) (pid : PageId) (d : Int) : List (PageId × Int) :=
  if pins.any fun q => q.1 = pid then
    pins.map fun q => if q.1 = pid then (q.1, q.2 + d) else q
  else pins ++ [(pid, d)]

/-- Current pin count of a page (0 if never pinned). -/
def pinCount (st : TState) (pid : PageId) : Int :=
  ((st.pins.find? fun q => q.1 = pid).map fun q => q.2).getD 0

/-- Modelled from the spec: `bufferpool.get_page` returns the page-data
view and increments the page's pin count (no pin is taken when the page
does not exist and the call raises instead). -/
def getPageSt (st : TState) (pid : PageId) : Option Page × TState :=
  match pageAtId st pid with
  | none => (none, st)
  | some p => (some p, { st with pins := pinAdj st.pins pid 1 })

/-- Modelled from the spec: `bufferpool.unpin_page` decrements the pin
count. -/
def unpinPage (st : TState) (pid : PageId) : TState :=
  { st with pins := pinAdj st.pins pid (-1) }

/-- `Query._get_latest_version`: one step of indirection, always read from
the BASE page at the RID's coordinates.  `None`, `["empty"]`, an
out-of-range slot or a missing page all yield the RID itself (the latter
through the `except` branch).  The `get_page`/`finally unpin_page` pair is
balanced on every path, so the pin state is unchanged. -/
def getLatestVersion (st : TState) (r : Rid) : Rid :=
  match basePageAt st r.pr r.pg with
  | none => r
  | some p =>
    match p.indirection.get? r.slot with
    | some (Indir.ptr nxt) => nxt
    | some _ => r
    | none => r

/-- Loop body of `Query._safely_get_latest_version`: follow indirection
from `current` by the page of its own kind, stopping on a terminal slot, a
visited RID (cycle guard) or fuel exhaustion / a missing page, which return
the original argument through the iteration cap / `except` branches. -/
def sglvAux (st : TState) (orig : Rid) : Nat → Rid → List Rid → Rid
  | 0, _, _ => orig
  | fuel + 1, current, visited =>
    match pageOf st current with
    | none => orig
    | some p =>
      match p.indirection.get? current.slot with
      | none => current
      | some Indir.nullv => current
      | some Indir.empty => current
      | some (Indir.ptr nxt) =>
        if nxt ∈ visited then current
        else sglvAux st orig fuel nxt (nxt :: visited)

/-- `Query._safely_get_latest_version` with its 1000-iteration cap. -/
def safelyGetLatestVersion (st : TState) (r : Rid) : Rid :=
  sglvAux st r 1000 r [r]

/-- Loop body of `Query._safely_get_historical_version`.  The fuel is the
number of steps still to take; reaching 0 returns `chain[-1] = current`.
Every `break` inside the loop leaves `steps_taken < steps_back` and the
function then returns the base RID.  A slot holding the `["empty"]` marker
is appended to the chain as-is by the source: if steps remain the next
iteration fails to unpack it and the `except` branch returns the base; if
it is the final element the source returns the marker itself, which is not
a RID — modelled as `none`. -/
def sghvAux (st : TState) (base : Rid) : Nat → Rid → List Rid → Option Rid
  | 0, current, _ => some current
  | n + 1, current, visited =>
    if current = base then some base
    else
      match pageOf st current with
      | none => some base
      | some p =>
        match p.indirection.get? current.slot with
        | none => some base
        | some Indir.nullv => some base
        | some Indir.empty => if n = 0 then none else some base
        | some (Indir.ptr prev) =>
          if prev = current then some base
          else if prev ∈ visited then some base
          else sghvAux st base n prev (prev :: visited)

/-- `Query._safely_get_historical_version current base steps`. -/
def safelyGetHistoricalVersion (st : TState) (current base : Rid) (steps : Nat) : Option Rid :=
  if steps = 0 then some current
  else sghvAux st base steps current [current]

/-- `Query._get_column_value` (the second definition in the class body,
which shadows the first): read `columns[col][slot]` of the page the RID
refers to, `None` when the page, column or slot does not exist.  The
buffer pool branch and the direct-access fallback read the same stored
data; pins are balanced on every path. -/
def getColumnValue (st : TState) (r : Rid) (c : Nat) : Option Int :=
  (pageOf st r).bind fun p => (p.columns.get? c).bind fun col => col.get? r.slot

/-- `int(value) if value is not None else 0` applied to each projected
column of a resolved RID, as in `select_version`'s materialization loops. -/
def projVals (st : TState) (r : Rid) (proj : List Nat) : List Int :=
  proj.enum.filterMap fun q =>
    if q.2 = 1 then some ((getColumnValue st r q.1).getD 0) else none

/-- The record built by `select_version`'s `except` branch: the search key
at the search-column position and 0 for every other projected column. -/
def svFallback (skey : Int) (sidx : Nat) (proj : List Nat) : List Int :=
  proj.enum.filterMap fun q =>
    if q.2 = 1 then some (if q.1 = sidx then skey else 0) else none

/-- Overwrite one indirection slot of a page. -/
def setIndirSlot (slot : Nat) (v : Indir) (p : Page) : Page :=
  { p with indirection := p.indirection.set slot v }

/-- Apply a page transformation to one base page of a range. -/
def mapBasePage (pg : Nat) (f : Page → Page) (R : PageRange) : PageRange :=
  { R with base_pages := modifyNth f pg R.base_pages }

/-- Replace one tail page of a range. -/
def putTailPage (i : Nat) (p : Page) (R : PageRange) : PageRange :=
  { R with tail_pages := modifyNth (fun _ => p) i R.tail_pages }

/-- Set the indirection entry of the base page at a RID's coordinates
(callers check the slot bound first, as the source's list assignment
would raise otherwise). -/
def setBaseIndir (st : TState) (r : Rid) (v : Indir) : TState :=
  { st with page_ranges :=
      modifyNth (mapBasePage r.pg (setIndirSlot r.slot v)) r.pr st.page_ranges }

/-- Replace the tail page at an index inside a page range. -/
def setTailPage (st : TState) (pr i : Nat) (p : Page) : TState :=
  { st with page_ranges := modifyNth (putTailPage i p) pr st.page_ranges }

/-- Modelled from the spec: a freshly constructed page with `n` empty
physical column pages and empty metadata vectors. -/
def freshPage (n : Nat) : Page :=
  { columns := List.replicate n [], indirection := [], rids := [],
    timestamps := [], schema := [] }

/-- Modelled from the spec: `has_capacity` of a base/tail page equals the
first physical column page's capacity check `num_records < K`. -/
def pageHasCapacity (p : Page) : Bool :=
  (p.columns.headD []).length < PAGE_CAPACITY

/-- `add_tail_page` when the range has no tail page with capacity. -/
def addTailIfNeeded (n : Nat) (R : PageRange) : PageRange :=
  match R.tail_pages.getLast? with
  | none => { R with tail_pages := R.tail_pages ++ [freshPage n] }
  | some tp =>
    if pageHasCapacity tp then R
    else { R with tail_pages := R.tail_pages ++ [freshPage n] }

/-- `update`'s tail page preparation: `if not tail_pages or not
tail_pages[-1].has_capacity(): add_tail_page(num_columns)`. -/
def ensureTailCapacity (st : TState) (pr : Nat) : TState :=
  { st with page_ranges := modifyNth (addTailIfNeeded st.num_columns) pr st.page_ranges }

/-- Whether a full row of `n` values can be appended: every one of the
first `n` physical column pages exists and has capacity (`write` fails on
a full page). -/
def canAppend (p : Page) (n : Nat) : Bool :=
  decide (n ≤ p.columns.length) &&
    (p.columns.take n).all fun c => decide (c.length < PAGE_CAPACITY)

/-- Append one value to each column list, driven by the row (as the
source's `for i, value in enumerate(tail_page_columns)` loop is). -/
def appendCols : List (List Int) → List Int → List (List Int)
  | cs, [] => cs
  | [], _ :: _ => []
  | c :: cs, v :: vs => (c ++ [v]) :: appendCols cs vs

/-- Append a complete row plus its per-slot metadata to a page, the
combined effect of the column writes and the four vector appends. -/
def appendRow (p : Page) (row : List Int) (ind : Indir) (r : Rid) (sch : List Bool) : Page :=
  { columns := appendCols p.columns row,
    indirection := p.indirection ++ [ind],
    rids := p.rids ++ [r],
    timestamps := p.timestamps ++ [0],
    schema := p.schema ++ [sch] }

/-- `columns[i]` when `i < len(columns) and columns[i] is not None`. -/
def optAt (cols : List (Option Int)) (i : Nat) : Option Int :=
  (cols.get? i).bind id

/-- `update`'s schema encoding: a set bit per supplied non-null column. -/
def schemaOf (n : Nat) (cols : List (Option Int)) : List Bool :=
  (List.range n).map fun i => (optAt cols i).isSome

/-- `Query.delete(primary_key)` for a non-transactional query: locate the
key, validate the page indices, write the `["empty"]` tombstone into the
base page's indirection slot, remove the RID from the page directory and
the key from the key index.  The out-of-range-slot branch only removes the
page-directory entry. -/
def delete (st : TState) (pk : Int) : Bool × TState :=
  match locate st.index st.key pk with
  | [] => (false, st)
  | rid :: _ =>
    match st.page_ranges.get? rid.pr with
    | none => (false, st)
    | some R =>
      match R.base_pages.get? rid.pg with
      | none => (false, st)
      | some bp =>
        if rid.slot < bp.indirection.length then
          let st1 := setBaseIndir st rid Indir.empty
          let st2 := { st1 with page_directory := pdDel st1.page_directory rid }
          let st3 := { st2 with index := indexDelete st2.index st2.key pk rid }
          (true, st3)
        else if (pdGet st.page_directory rid).isSome then
          (true, { st with page_directory := pdDel st.page_directory rid })
        else (false, st)

/-- Modelled from the spec: allocate a new page range, or a new base page
in the last range, whenever the last base page lacks capacity (base pages
are added until `RANGE_BASE_PAGES`, then inserts roll over to a new
range). -/
def ensureBaseCapacity (st : TState) : TState :=
  match st.page_ranges.getLast? with
  | none =>
    { st with page_ranges := [{ base_pages := [freshPage st.num_columns], tail_pages := [] }] }
  | some R =>
    match R.base_pages.getLast? with
    | none =>
      let fr := fun (R : PageRange) =>
        { R with base_pages := R.base_pages ++ [freshPage st.num_columns] }
      { st with page_ranges := modifyNth fr (st.page_ranges.length - 1) st.page_ranges }
    | some bp =>
      if pageHasCapacity bp then st
      else if R.base_pages.length < RANGE_BASE_PAGES then
        let fr := fun (R : PageRange) =>
          { R with base_pages := R.base_pages ++ [freshPage st.num_columns] }
        { st with page_ranges := modifyNth fr (st.page_ranges.length - 1) st.page_ranges }
      else
        { st with page_ranges :=
            st.page_ranges ++ [{ base_pages := [freshPage st.num_columns], tail_pages := [] }] }

/-- Modelled from the spec: `Table.insert_record` (`table.py` is not among
the sources).  Ensure base capacity, append the row with a fresh base RID,
a `none` indirection entry and an all-zero schema encoding, insert the
materialized `Record` into the page directory, and index every column's
value under the new RID. -/
def insertRecord (st : TState) (cols : List Int) (key : Int) : Bool × TState :=
  let st1 := ensureBaseCapacity st
  let pr := st1.page_ranges.length - 1
  match st1.page_ranges.get? pr with
  | none => (false, st1)
  | some R =>
    let pg := R.base_pages.length - 1
    match R.base_pages.get? pg with
    | none => (false, st1)
    | some bp =>
      if canAppend bp st1.num_columns then
        let slot := bp.rids.length
        let rid : Rid := { pr := pr, pg := pg, slot := slot, tail := false }
        let row := (List.range st1.num_columns).map fun i => (cols.get? i).getD 0
        let bp2 := appendRow bp row Indir.nullv rid (List.replicate st1.num_columns false)
        let fr := fun (R : PageRange) =>
          { R with base_pages := modifyNth (fun _ => bp2) pg R.base_pages }
        let st2 := { st1 with page_ranges := modifyNth fr pr st1.page_ranges }
        let pd3 := pdSet st2.page_directory rid { rid := rid, key := key, columns := row }
        let st3 := { st2 with page_directory := pd3 }
        let idx4 := (List.range st3.num_columns).foldl
          (fun idx c => indexInsertCol idx c (row.getD c 0) rid) st3.index
        let st4 := { st3 with index := idx4 }
        (true, st4)
      else (false, st1)

/-- `Query.insert(*columns)` for a non-transactional query.  The key
extraction `columns[self.table.key]` happens before the `try` block, so a
column list shorter than `key + 1` raises to the caller (`Except.error`).
Everything raised inside `insert_record` is caught and returns `False`. -/
def insert (st : TState) (cols : List Int) : Except Unit (Bool × TState) :=
  match cols.get? st.key with
  | none => Except.error ()
  | some key =>
    if (locate st.index st.key key).isEmpty then Except.ok (insertRecord st cols key)
    else Except.ok (false, st)

/-- The merge trigger bookkeeping at the end of a successful `update`.
Modelled from the spec: `trigger_merge` must not change the observable
result of any select or sum at the moment it commits (`table.py` is not
among the sources), so the modelled consolidation is the identity. -/
def bumpMerge (st : TState) : TState :=
  let mc := st.merge_counter + 1
  if MERGE_THRESHOLD ≤ mc then { st with merge_counter := 0 }
  else { st with merge_counter := mc }

/-- The primary-key-change bookkeeping of `update` (executed only when
`new_key != primary_key`): delete the prior latest RID from the page
directory, then update the key index when it exists. -/
def keyChange (st : TState) (pk newKey : Int) (latest tailRid : Rid) : TState :=
  let st1 := { st with page_directory := pdDel st.page_directory latest }
  if (st1.index.get? st1.key).isSome then
    let idx := indexInsertCol (indexDelete st1.index st1.key pk latest) st1.key newKey tailRid
    { st1 with index := idx }
  else st1

/-- The tail of `Query.update`'s success path, after the base indirection
slot bound has been checked: swing the base pointer to the new tail RID,
install the new `Record` in the page directory, perform the
primary-key-change bookkeeping when needed, unpin both pages and run the
merge-counter bookkeeping. -/
def updateCommit (st4 : TState) (b : Rid) (pk : Int) (cols : List (Option Int))
    (latest tailRid : Rid) (row : List Int) (tpIdx : Nat) : Bool × TState :=
  let st5 := setBaseIndir st4 b (Indir.ptr tailRid)
  let newKey :=
    match optAt cols st5.key with
    | some v => if v ≠ pk then v else pk
    | none => pk
  let pd6 := pdSet st5.page_directory tailRid
    { rid := tailRid, key := pk, columns := row }
  let st6 := { st5 with page_directory := pd6 }
  let st7 := if newKey ≠ pk then keyChange st6 pk newKey latest tailRid else st6
  let st8 := unpinPage st7 { isBase := false, pr := b.pr, pg := tpIdx }
  let st9 := unpinPage st8 { isBase := true, pr := b.pr, pg := b.pg }
  (true, bumpMerge st9)

/-- The `try` body of `Query.update` starting after the RID lookup.  Each
point where the source can raise inside the `try` returns `(false, state)`
with the state exactly as mutated so far — in particular with any pages
still pinned, as the `except` branch performs no unpinning. -/
def updateGo (st : TState) (pk : Int) (cols : List (Option Int)) (b : Rid) : Bool × TState :=
  if b.pr < st.page_ranges.length then
    match getPageSt st { isBase := true, pr := b.pr, pg := b.pg } with
    | (none, st1) => (false, st1)
    | (some bp, st1) =>
      let latest := getLatestVersion st1 b
      match pdGet st1.page_directory b with
      | none => (false, st1)
      | some baseRec =>
        let current := (pdGet st1.page_directory latest).getD baseRec
        let st2 := ensureTailCapacity st1 b.pr
        let tpIdx := (((st2.page_ranges.get? b.pr).map fun R => R.tail_pages.length).getD 0) - 1
        match getPageSt st2 { isBase := false, pr := b.pr, pg := tpIdx } with
        | (none, st3) => (false, st3)
        | (some tp, st3) =>
          if (cols.drop st3.num_columns).any (fun c => c.isSome) then (false, st3)
          else
            let sch := schemaOf st3.num_columns cols
            let tailRid : Rid := { pr := b.pr, pg := tpIdx, slot := tp.rids.length, tail := true }
            match baseRec.columns.get? st3.key with
            | none => (false, st3)
            | some okv =>
              let row := (List.range st3.num_columns).map fun i =>
                if i = st3.key then okv
                else
                  match optAt cols i with
                  | some v => v
                  | none => (current.columns.get? i).getD 0
              if canAppend tp st3.num_columns then
                let st4 := setTailPage st3 b.pr tpIdx
                  (appendRow tp row (Indir.ptr latest) tailRid sch)
                if b.slot < bp.indirection.length then
                  updateCommit st4 b pk cols latest tailRid row tpIdx
                else (false, st4)
              else (false, st3)
  else (false, st)

/-- `Query.update(primary_key, *columns)` for a non-transactional query. -/
def update (st : TState) (pk : Int) (cols : List (Option Int)) : Bool × TState :=
  match locate st.index st.key pk with
  | [] => (false, st)
  | b :: _ => updateGo st pk cols b

/-- The `try` body of `Query.select_version` after the base RID has been
chosen.  `Except.error` marks the two points where the body can raise: a
projected column index out of range of the page-directory record in the
version-0 branch, and the historical walk ending exactly on a `["empty"]`
marker (the marker is not a RID and the materialization loop raises). -/
def svBody (st : TState) (skey : Int) (proj : List Nat) (v : Int) (b : Rid) :
    Except Unit (List Record) :=
  if v = -1 then
    match pdGet st.page_directory b with
    | some r => Except.ok [r]
    | none => Except.ok [{ rid := b, key := skey, columns := projVals st b proj }]
  else if v = 0 then
    match st.page_directory.find? (fun p => p.2.key = skey ∧ p.1.tail = true) with
    | some q =>
      if proj.enum.any (fun w => w.2 = 1 ∧ q.2.columns.length ≤ w.1) then Except.error ()
      else
        let vs := proj.enum.filterMap fun w =>
          if w.2 = 1 then q.2.columns.get? w.1 else none
        Except.ok [{ rid := q.1, key := skey, columns := vs }]
    | none =>
      Except.ok [Record.mk (safelyGetLatestVersion st b) skey
        (projVals st (safelyGetLatestVersion st b) proj)]
  else
    match (if safelyGetLatestVersion st b ≠ b then
        safelyGetHistoricalVersion st (safelyGetLatestVersion st b) b v.natAbs
      else some b) with
    | none => Except.error ()
    | some t => Except.ok [{ rid := t, key := skey, columns := projVals st t proj }]

/-- `Query.select_version(search_key, search_key_index, projection, v)` for
a non-transactional query: locate the RIDs, prefer the first base-kind RID,
run the `try` body and on any exception return the single fallback
record. -/
def select_version (st : TState) (skey : Int) (sidx : Nat) (proj : List Nat) (v : Int) :
    List Record :=
  match locate st.index sidx skey with
  | [] => []
  | r0 :: rest =>
    let baseRids := (r0 :: rest).filter fun r => r.tail = false
    let b := baseRids.headD r0
    match svBody st skey proj v b with
    | Except.ok l => l
    | Except.error _ => [{ rid := b, key := skey, columns := svFallback skey sidx proj }]

/-- The accumulator loop of `Query.sum`: resolve the latest version of
each RID, skip when its key column is unreadable, out of `[lo, hi]` or
already processed, and otherwise add the aggregate column (0 when
unreadable). -/
def sumLoop (st : TState) (lo hi : Int) (c : Nat) : List Rid → Int → List Int → Int
  | [], acc, _ => acc
  | r :: rs, acc, seen =>
    match getColumnValue st (getLatestVersion st r) st.key with
    | none => sumLoop st lo hi c rs acc seen
    | some kv =>
      if kv < lo ∨ hi < kv ∨ kv ∈ seen then sumLoop st lo hi c rs acc seen
      else sumLoop st lo hi c rs
        (acc + (getColumnValue st (getLatestVersion st r) c).getD 0) (kv :: seen)

/-- `Query.sum(start_range, end_range, aggregate_column_index)`: `none`
models the Python `False` returned when the range lookup finds no RIDs. -/
def sumQ (st : TState) (lo hi : Int) (c : Nat) : Option Int :=
  match locateRange st lo hi with
  | [] => none
  | rids => some (sumLoop st lo hi c rids 0 [])

/-- Modelled from the spec: `Database.create_table(name, n, key_index)`
registers the per-column indexes for all `n` columns of a fresh table. -/
def createTable (n keyIdx : Nat) : TState :=
  { key := keyIdx, num_columns := n, page_ranges := [], page_directory := [],
    index := List.replicate n [], merge_counter := 0, pins := [] }

/-- The second component of an `insert` result, with the pre-state as the
fallback for the propagated-exception case. -/
def afterInsert (st : TState) (cols : List Int) : TState :=
  match insert st cols with
  | Except.ok p => p.2
  | Except.error _ => st

/-- Scenario state: `create_table(3, key_index=0)`. -/
def sc0 : TState := createTable 3 0

/-- Scenario state after `insert(100, 11, 12)` (spec scenario S1). -/
def sc1 : TState := afterInsert sc0 [100, 11, 12]

/-- After `update(100, None, 22, None)` (spec scenario S2). -/
def sc2 : TState := (update sc1 100 [none, some 22, none]).2

/-- After a further `update(100, None, 33, None)`. -/
def sc3 : TState := (update sc2 100 [none, some 33, none]).2

/-- After a further `update(100, None, 44, None)` (spec scenario S3). -/
def sc4 : TState := (update sc3 100 [none, some 44, none]).2

/-- The base RID allocated by the scenario's insert. -/
def b0 : Rid := { pr := 0, pg := 0, slot := 0, tail := false }

/-- The tail RID of the scenario's first update. -/
def t1 : Rid := { pr := 0, pg := 0, slot := 0, tail := true }

/-- The tail pages of a page range, for stating alignment hypotheses. -/
def tailsOf (st : TState) (pr : Nat) : List Page :=
  ((st.page_ranges.get? pr).map fun R => R.tail_pages).getD []

/-- Well-formedness of a page: the metadata vectors and every physical
column page agree with the number of stored records. -/
def pageAligned (p : Page) : Prop :=
  p.indirection.length = p.rids.length ∧ ∀ c ∈ p.columns, c.length = p.rids.length

instance pageAlignedDec : DecidablePred pageAligned := fun p =>
  decidable_of_iff
    (p.indirection.length = p.rids.length ∧ ∀ c ∈ p.columns, c.length = p.rids.length)
    Iff.rfl

/-- The `current_record` of `update`: the page-directory image of the
one-step latest version, defaulting to the base image. -/
def priorLatestImage (st : TState) (b : Rid) : Option Record :=
  (pdGet st.page_directory b).map fun baseRec =>
    (pdGet st.page_directory (getLatestVersion st b)).getD baseRec

section HelperLemmas

theorem get?_modifyNth (f : α → α) (i j : Nat) (l : List α) :
    (modifyNth f i l).get? j = if i = j then (l.get? j).map f else l.get? j := by
  induction l generalizing i j with
  | nil => cases i <;> cases j <;> simp [modifyNth]
  | cons x xs ih =>
    cases i with
    | zero => cases j <;> simp [modifyNth]
    | succ m =>
      cases j with
      | zero => simp [modifyNth]
      | succ n => simpa [modifyNth, Nat.succ_inj] using ih m n

theorem get?_set_self (l : List α) (i : Nat) (a : α) :
    (l.set i a).get? i = (l.get? i).map fun _ => a := by
  induction l generalizing i with
  | nil => cases i <;> rfl
  | cons x xs ih => cases i with
    | zero => rfl
    | succ n => simpa using ih n

theorem get?_append_length (l : List α) (a : α) :
    (l ++ [a]).get? l.length = some a := by
  induction l with
  | nil => rfl
  | cons x xs ih => simp only [List.cons_append, List.length_cons, List.get?]; exact ih

theorem appendCols_get? (cs : List (List Int)) (row : List Int) (i : Nat)
    (c : List Int) (v : Int) (hc : cs.get? i = some c) (hv : row.get? i = some v) :
    (appendCols cs row).get? i = some (c ++ [v]) := by
  induction row generalizing cs i with
  | nil => simp at hv
  | cons w ws ih =>
    cases cs with
    | nil => simp at hc
    | cons c0 cs0 =>
      cases i with
      | zero =>
        simp only [List.get?] at hc hv
        cases hc; cases hv; rfl
      | succ n =>
        simp only [List.get?] at hc hv
        simpa [appendCols] using ih cs0 n hc hv

theorem pdGet_pdSet_self (pd : List (Rid × Record)) (r : Rid) (rec : Record) :
    pdGet (pdSet pd r rec) r = some rec := by
  unfold pdGet pdSet
  split
  · rename_i hany
    rw [List.find?_map]
    have hpred : ((fun p : Rid × Record => decide (p.1 = r)) ∘
        fun p : Rid × Record => if p.1 = r then (r, rec) else p) =
        fun p : Rid × Record => decide (p.1 = r) := by
      funext q
      by_cases hq : q.1 = r <;> simp [hq]
    rw [hpred]
    have hsome : (pd.find? fun p : Rid × Record => decide (p.1 = r)).isSome :=
      List.find?_isSome.mpr (List.any_eq_true.mp hany)
    obtain ⟨q0, hq0⟩ := Option.isSome_iff_exists.mp hsome
    have hq0r : q0.1 = r := by simpa using List.find?_some hq0
    rw [hq0]
    simp [hq0r]
  · have hnone : pd.find? (fun p : Rid × Record => decide (p.1 = r)) = none := by
      rename_i hany
      rw [List.find?_eq_none]
      intro x hx hcontra
      exact hany (List.any_eq_true.mpr ⟨x, hx, hcontra⟩)
    rw [List.find?_append, hnone]
    simp

theorem pdGet_pdSet_ne (pd : List (Rid × Record)) (r2 : Rid) (rec : Record)
    (r : Rid) (h : r ≠ r2) : pdGet (pdSet pd r2 rec) r = pdGet pd r := by
  unfold pdGet pdSet
  split
  · rw [List.find?_map]
    have hpred : ((fun p : Rid × Record => decide (p.1 = r)) ∘
        fun p : Rid × Record => if p.1 = r2 then (r2, rec) else p) =
        fun p : Rid × Record => decide (p.1 = r) := by
      funext q
      by_cases hq : q.1 = r2
      · simp [hq, fun hh : r2 = r => h hh.symm]
      · simp [hq]
    rw [hpred]
    cases hf : pd.find? fun p : Rid × Record => decide (p.1 = r) with
    | none => simp
    | some q0 =>
      have hq0r : q0.1 = r := by simpa using List.find?_some hf
      have : ¬ q0.1 = r2 := fun hh => h (hq0r ▸ hh)
      simp [this]
  · rw [List.find?_append]
    have hr2 : ¬ r2 = r := fun hh => h hh.symm
    have hlast : [(r2, rec)].find? (fun p : Rid × Record => decide (p.1 = r)) = none := by
      simp [hr2]
    rw [hlast]
    cases pd.find? fun p : Rid × Record => decide (p.1 = r) <;> simp

theorem pdGet_pdDel_self (pd : List (Rid × Record)) (r : Rid) :
    pdGet (pdDel pd r) r = none := by
  unfold pdGet pdDel
  have hnone : (pd.filter fun p : Rid × Record => decide (p.1 ≠ r)).find?
      (fun p : Rid × Record => decide (p.1 = r)) = none := by
    rw [List.find?_eq_none]
    intro x hx
    have := List.of_mem_filter hx
    simpa using this
  rw [hnone]
  rfl

theorem getPageSt_some (st : TState) (pid : PageId) (p : Page) (st1 : TState)
    (h : getPageSt st pid = (some p, st1)) :
    pageAtId st pid = some p ∧ st1 = { st with pins := pinAdj st.pins pid 1 } := by
  unfold getPageSt at h
  split at h
  · simp at h
  · rename_i q hq
    obtain ⟨h1, h2⟩ := Prod.mk.injEq .. ▸ h
    constructor
    · rw [hq]; exact congrArg some (Option.some.injEq .. ▸ h1)
    · exact h2.symm

theorem page_ranges_unpinPage (st : TState) (pid : PageId) :
    (unpinPage st pid).page_ranges = st.page_ranges := rfl

theorem page_ranges_bumpMerge (st : TState) :
    (bumpMerge st).page_ranges = st.page_ranges := by
  unfold bumpMerge
  dsimp only
  split <;> rfl

theorem page_ranges_keyChange (st : TState) (pk nk : Int) (l t : Rid) :
    (keyChange st pk nk l t).page_ranges = st.page_ranges := by
  unfold keyChange
  dsimp only
  split <;> rfl

theorem index_unpinPage (st : TState) (pid : PageId) :
    (unpinPage st pid).index = st.index := rfl

theorem index_bumpMerge (st : TState) :
    (bumpMerge st).index = st.index := by
  unfold bumpMerge
  dsimp only
  split <;> rfl

theorem pd_unpinPage (st : TState) (pid : PageId) :
    (unpinPage st pid).page_directory = st.page_directory := rfl

theorem pd_bumpMerge (st : TState) :
    (bumpMerge st).page_directory = st.page_directory := by
  unfold bumpMerge
  dsimp only
  split <;> rfl

theorem basePageAt_eq_of_ranges (st st' : TState)
    (h : st'.page_ranges = st.page_ranges) (pr pg : Nat) :
    basePageAt st' pr pg = basePageAt st pr pg := by
  unfold basePageAt
  rw [h]

theorem tailPageAt_eq_of_ranges (st st' : TState)
    (h : st'.page_ranges = st.page_ranges) (pr pg : Nat) :
    tailPageAt st' pr pg = tailPageAt st pr pg := by
  unfold tailPageAt
  rw [h]

theorem addTailIfNeeded_base_pages (n : Nat) (R : PageRange) :
    (addTailIfNeeded n R).base_pages = R.base_pages := by
  unfold addTailIfNeeded
  cases R.tail_pages.getLast? with
  | none => rfl
  | some tp =>
    dsimp only
    split <;> rfl

theorem mapBasePage_tail_pages (pg : Nat) (f : Page → Page) (R : PageRange) :
    (mapBasePage pg f R).tail_pages = R.tail_pages := rfl

theorem putTailPage_base_pages (i : Nat) (p : Page) (R : PageRange) :
    (putTailPage i p R).base_pages = R.base_pages := rfl

theorem bind_base_congr (o o' : Option PageRange)
    (h : ∀ R', o' = some R' → ∃ R, o = some R ∧ R'.base_pages = R.base_pages)
    (hn : o' = none → o = none) (k : Nat) :
    (o'.bind fun R => R.base_pages.get? k) = o.bind fun R => R.base_pages.get? k := by
  cases ho' : o' with
  | none => rw [hn ho']
  | some R' =>
    obtain ⟨R, hR, hbase⟩ := h R' ho'
    rw [hR]
    simp [Option.bind, hbase]

theorem basePageAt_setTailPage (st : TState) (pr i : Nat) (p : Page) (j k : Nat) :
    basePageAt (setTailPage st pr i p) j k = basePageAt st j k := by
  unfold basePageAt setTailPage
  dsimp only
  rw [get?_modifyNth]
  by_cases hpr : pr = j
  · rw [if_pos hpr]
    apply bind_base_congr
    · intro R' hR'
      cases hs : st.page_ranges.get? j with
      | none => rw [hs] at hR'; simp at hR'
      | some R =>
        rw [hs] at hR'
        refine ⟨R, rfl, ?_⟩
        have : R' = putTailPage i p R := by simpa using hR'.symm
        rw [this, putTailPage_base_pages]
    · intro hR'
      cases hs : st.page_ranges.get? j with
      | none => rfl
      | some R => rw [hs] at hR'; simp at hR'
  · rw [if_neg hpr]

theorem basePageAt_ensureTail (st : TState) (pr : Nat) (j k : Nat) :
    basePageAt (ensureTailCapacity st pr) j k = basePageAt st j k := by
  unfold basePageAt ensureTailCapacity
  dsimp only
  rw [get?_modifyNth]
  by_cases hpr : pr = j
  · rw [if_pos hpr]
    apply bind_base_congr
    · intro R' hR'
      cases hs : st.page_ranges.get? j with
      | none => rw [hs] at hR'; simp at hR'
      | some R =>
        rw [hs] at hR'
        refine ⟨R, rfl, ?_⟩
        have : R' = addTailIfNeeded st.num_columns R := by simpa using hR'.symm
        rw [this, addTailIfNeeded_base_pages]
    · intro hR'
      cases hs : st.page_ranges.get? j with
      | none => rfl
      | some R => rw [hs] at hR'; simp at hR'
  · rw [if_neg hpr]

theorem tailPageAt_setBaseIndir (st : TState) (r : Rid) (v : Indir) (j k : Nat) :
    tailPageAt (setBaseIndir st r v) j k = tailPageAt st j k := by
  unfold tailPageAt setBaseIndir
  dsimp only
  rw [get?_modifyNth]
  by_cases hpr : r.pr = j
  · rw [if_pos hpr]
    cases hs : st.page_ranges.get? j with
    | none => rfl
    | some R => simp [Option.bind, mapBasePage_tail_pages]
  · rw [if_neg hpr]

theorem basePageAt_setBaseIndir_ne (st : TState) (r : Rid) (v : Indir) (j k : Nat)
    (h : ¬ (j = r.pr ∧ k = r.pg)) :
    basePageAt (setBaseIndir st r v) j k = basePageAt st j k := by
  unfold basePageAt setBaseIndir
  dsimp only
  rw [get?_modifyNth]
  by_cases hpr : r.pr = j
  · rw [if_pos hpr]
    cases hs : st.page_ranges.get? j with
    | none => rfl
    | some R =>
      simp only [Option.map_some', Option.some_bind, mapBasePage]
      rw [get?_modifyNth]
      have hpg : ¬ r.pg = k := fun hh => h ⟨hpr.symm, hh.symm⟩
      rw [if_neg hpg]
  · rw [if_neg hpr]

theorem basePageAt_setBaseIndir_self (st : TState) (r : Rid) (v : Indir) (R : PageRange)
    (bp : Page) (hR : st.page_ranges.get? r.pr = some R)
    (hbp : R.base_pages.get? r.pg = some bp) :
    basePageAt (setBaseIndir st r v) r.pr r.pg =
      some { bp with indirection := bp.indirection.set r.slot v } := by
  unfold basePageAt setBaseIndir
  dsimp only
  rw [get?_modifyNth, if_pos rfl, hR]
  simp only [Option.map_some', Option.some_bind, mapBasePage]
  rw [get?_modifyNth, if_pos rfl, hbp]
  rfl

theorem tailPageAt_setTailPage_self (st : TState) (pr i : Nat) (p : Page)
    (R : PageRange) (old : Page) (hR : st.page_ranges.get? pr = some R)
    (hold : R.tail_pages.get? i = some old) :
    tailPageAt (setTailPage st pr i p) pr i = some p := by
  unfold tailPageAt setTailPage
  dsimp only
  rw [get?_modifyNth, if_pos rfl, hR]
  simp only [Option.map_some', Option.some_bind, putTailPage]
  rw [get?_modifyNth, if_pos rfl, hold]
  rfl

theorem ensureTail_mem_or_fresh (st : TState) (pr : Nat) (tp : Page) (i : Nat)
    (h : tailPageAt (ensureTailCapacity st pr) pr i = some tp) :
    (∃ R, st.page_ranges.get? pr = some R ∧ tp ∈ R.tail_pages) ∨
      tp = freshPage st.num_columns := by
  unfold tailPageAt ensureTailCapacity at h
  dsimp only at h
  rw [get?_modifyNth, if_pos rfl] at h
  cases hR : st.page_ranges.get? pr with
  | none => rw [hR] at h; simp at h
  | some R =>
    rw [hR] at h
    simp only [Option.map_some', Option.some_bind] at h
    unfold addTailIfNeeded at h
    have happ : ∀ (tps : List Page),
        (R.tail_pages ++ [freshPage st.num_columns]).get? i = some tp → tps = tps →
        tp ∈ R.tail_pages ∨ tp = freshPage st.num_columns := by
      intro _ hget _
      rcases List.mem_append.mp (List.get?_mem hget) with hm | hm
      · exact Or.inl hm
      · exact Or.inr (by simpa using hm)
    cases hL : R.tail_pages.getLast? with
    | none =>
      rw [hL] at h
      dsimp only at h
      rcases happ [] h rfl with hm | hm
      · exact Or.inl ⟨R, rfl, hm⟩
      · exact Or.inr hm
    | some lastp =>
      rw [hL] at h
      dsimp only at h
      split at h
      · exact Or.inl ⟨R, rfl, List.get?_mem h⟩
      · rcases happ [] h rfl with hm | hm
        · exact Or.inl ⟨R, rfl, hm⟩
        · exact Or.inr hm

theorem pd_keyChange (st : TState) (pk nk : Int) (l t : Rid) :
    (keyChange st pk nk l t).page_directory = pdDel st.page_directory l := by
  unfold keyChange
  dsimp only
  split <;> rfl

theorem index_keyChange_some (st : TState) (pk nk : Int) (l t : Rid)
    (h : (st.index.get? st.key).isSome = true) :
    (keyChange st pk nk l t).index =
      indexInsertCol (indexDelete st.index st.key pk l) st.key nk t := by
  unfold keyChange
  dsimp only
  rw [if_pos h]

theorem index_keyChange_none (st : TState) (pk nk : Int) (l t : Rid)
    (h : ¬ (st.index.get? st.key).isSome = true) :
    (keyChange st pk nk l t).index = st.index := by
  unfold keyChange
  dsimp only
  rw [if_neg h]

theorem key_bumpMerge (st : TState) : (bumpMerge st).key = st.key := by
  unfold bumpMerge
  dsimp only
  split <;> rfl

theorem ncols_bumpMerge (st : TState) : (bumpMerge st).num_columns = st.num_columns := by
  unfold bumpMerge
  dsimp only
  split <;> rfl

theorem key_keyChange (st : TState) (pk nk : Int) (l t : Rid) :
    (keyChange st pk nk l t).key = st.key := by
  unfold keyChange
  dsimp only
  split <;> rfl

theorem ncols_keyChange (st : TState) (pk nk : Int) (l t : Rid) :
    (keyChange st pk nk l t).num_columns = st.num_columns := by
  unfold keyChange
  dsimp only
  split <;> rfl

theorem getLatestVersion_eq_of_ranges (st st' : TState)
    (h : st'.page_ranges = st.page_ranges) (r : Rid) :
    getLatestVersion st' r = getLatestVersion st r := by
  unfold getLatestVersion
  rw [basePageAt_eq_of_ranges st st' h]

theorem basePageAt_inv (st : TState) (pr pg : Nat) (p : Page)
    (h : basePageAt st pr pg = some p) :
    ∃ R, st.page_ranges.get? pr = some R ∧ R.base_pages.get? pg = some p := by
  unfold basePageAt at h
  cases hR : st.page_ranges.get? pr with
  | none => rw [hR] at h; simp at h
  | some R => rw [hR] at h; exact ⟨R, rfl, by simpa using h⟩

theorem tailPageAt_inv (st : TState) (pr pg : Nat) (p : Page)
    (h : tailPageAt st pr pg = some p) :
    ∃ R, st.page_ranges.get? pr = some R ∧ R.tail_pages.get? pg = some p := by
  unfold tailPageAt at h
  cases hR : st.page_ranges.get? pr with
  | none => rw [hR] at h; simp at h
  | some R => rw [hR] at h; exact ⟨R, rfl, by simpa using h⟩

end HelperLemmas

/-- The index of the tail page `update` appends to, after the capacity
check possibly added a fresh tail page. -/
def tailIdxAfter (st : TState) (pr : Nat) : Nat :=
  ((Option.map (fun R => R.tail_pages.length)
    ((ensureTailCapacity st pr).page_ranges.get? pr)).getD 0) - 1

/-- The RID `update` assigns to the appended tail slot. -/
def newTailRid (st : TState) (b : Rid) (tp : Page) : Rid :=
  { pr := b.pr, pg := tailIdxAfter st b.pr, slot := tp.rids.length, tail := true }

/-- The `new_key` computed by `update`. -/
def newKeyOf (cols : List (Option Int)) (key : Nat) (pk : Int) : Int :=
  match optAt cols key with
  | some v => if v ≠ pk then v else pk
  | none => pk

theorem ncols_unpinPage (st : TState) (pid : PageId) :
    (unpinPage st pid).num_columns = st.num_columns := rfl

theorem key_unpinPage (st : TState) (pid : PageId) :
    (unpinPage st pid).key = st.key := rfl

theorem updateCommit_inv (st4 : TState) (b : Rid) (pk : Int) (cols : List (Option Int))
    (latest tailRid : Rid) (row : List Int) (tpIdx : Nat) (st' : TState)
    (h : updateCommit st4 b pk cols latest tailRid row tpIdx = (true, st')) :
    st'.page_ranges = (setBaseIndir st4 b (Indir.ptr tailRid)).page_ranges ∧
    st'.num_columns = st4.num_columns ∧
    st'.key = st4.key ∧
    (newKeyOf cols st4.key pk = pk →
      st'.page_directory = pdSet st4.page_directory tailRid
        { rid := tailRid, key := pk, columns := row } ∧
      st'.index = st4.index) ∧
    (newKeyOf cols st4.key pk ≠ pk →
      st'.page_directory = pdDel (pdSet st4.page_directory tailRid
        { rid := tailRid, key := pk, columns := row }) latest ∧
      ((st4.index.get? st4.key).isSome = true →
        st'.index = indexInsertCol (indexDelete st4.index st4.key pk latest) st4.key
          (newKeyOf cols st4.key pk) tailRid) ∧
      (¬ (st4.index.get? st4.key).isSome = true → st'.index = st4.index)) := by
  unfold updateCommit at h
  dsimp only at h
  have hst' : st' = bumpMerge (unpinPage (unpinPage
      (if (newKeyOf cols st4.key pk) ≠ pk then
        keyChange { setBaseIndir st4 b (Indir.ptr tailRid) with
          page_directory := pdSet (setBaseIndir st4 b (Indir.ptr tailRid)).page_directory
            tailRid { rid := tailRid, key := pk, columns := row } } pk
          (newKeyOf cols st4.key pk) latest tailRid
       else { setBaseIndir st4 b (Indir.ptr tailRid) with
          page_directory := pdSet (setBaseIndir st4 b (Indir.ptr tailRid)).page_directory
            tailRid { rid := tailRid, key := pk, columns := row } })
      { isBase := false, pr := b.pr, pg := tpIdx })
      { isBase := true, pr := b.pr, pg := b.pg }) :=
    (congrArg Prod.snd h).symm
  subst hst'
  by_cases hnk : newKeyOf cols st4.key pk ≠ pk
  · rw [if_pos hnk]
    refine ⟨?_, ?_, ?_, ?_, ?_⟩
    · rw [page_ranges_bumpMerge, page_ranges_unpinPage, page_ranges_unpinPage,
        page_ranges_keyChange]
      try exact rfl
    · rw [ncols_bumpMerge, ncols_unpinPage, ncols_unpinPage, ncols_keyChange]
      exact rfl
    · rw [key_bumpMerge, key_unpinPage, key_unpinPage, key_keyChange]
      exact rfl
    · intro hk
      exact absurd hk hnk
    · intro hnk2
      refine ⟨?_, ?_, ?_⟩
      · rw [pd_bumpMerge, pd_unpinPage, pd_unpinPage, pd_keyChange]
        exact rfl
      · intro hsome
        rw [index_bumpMerge, index_unpinPage, index_unpinPage, index_keyChange_some]
        · exact rfl
        · exact hsome
      · intro hnone
        rw [index_bumpMerge, index_unpinPage, index_unpinPage, index_keyChange_none]
        · exact rfl
        · exact hnone
  · rw [if_neg hnk]
    push_neg at hnk
    refine ⟨?_, ?_, ?_, ?_, ?_⟩
    · rw [page_ranges_bumpMerge, page_ranges_unpinPage, page_ranges_unpinPage]
      try exact rfl
    · rw [ncols_bumpMerge, ncols_unpinPage, ncols_unpinPage]
      exact rfl
    · rw [key_bumpMerge, key_unpinPage, key_unpinPage]
      exact rfl
    · intro _
      constructor
      · rw [pd_bumpMerge, pd_unpinPage, pd_unpinPage]
        exact rfl
      · rw [index_bumpMerge, index_unpinPage, index_unpinPage]
        exact rfl
    · intro hk
      exact absurd hnk hk

/-- Nodes reached from a RID by repeatedly following indirection pointers,
stopping at the base RID; used by the claim-side version-resolution
description. -/
def chainBackTo (st : TState) (base : Rid) : Nat → Rid → List Rid
  | 0, _ => []
  | fuel + 1, r =>
    if r = base then []
    else
      match indirAt st r with
      | some (Indir.ptr p) => p :: chainBackTo st base fuel p
      | _ => []

/-- Claim-side definition, following the words of claim C2: resolve
relative version `-k` to the record reached by walking the indirection
chain from the base to the latest version and stepping back `k` nodes
along the chain, returning the base when fewer than `k` steps exist. -/
def specStepBack (st : TState) (b : Rid) (k : Nat) : Rid :=
  let latest :=
    match baseIndirAt st b with
    | some (Indir.ptr p) => p
    | _ => b
  let hist := latest :: chainBackTo st b 1000 latest
  (hist.get? k).getD b

/-- Claim-side definition, following the words of claim C4: build the tail
row per column as the supplied value when non-null, otherwise the original
base key for the primary key column, otherwise the prior latest image's
value. -/
def claimTailRow (n keyIdx : Nat) (cols : List (Option Int)) (baseKey : Int)
    (prior : List Int) : List Int :=
  (List.range n).map fun i =>
    match optAt cols i with
    | some v => v
    | none => if i = keyIdx then baseKey else (prior.get? i).getD 0

/-- The amended C4 build (what the source computes): the primary key
column always stores the original base key, every other column takes the
supplied value when non-null and otherwise inherits the prior latest
image's value (0 when that image lacks the column). -/
def amendedTailRow (n keyIdx : Nat) (cols : List (Option Int)) (baseKey : Int)
    (prior : List Int) : List Int :=
  (List.range n).map fun i =>
    if i = keyIdx then baseKey
    else
      match optAt cols i with
      | some v => v
      | none => (prior.get? i).getD 0

/-- Keep the first entry for each key, dropping keys already seen. -/
def dedupFst : List (Int × Int) → List Int → List (Int × Int)
  | [], _ => []
  | e :: es, seen =>
    if e.1 ∈ seen then dedupFst es seen else e :: dedupFst es (e.1 :: seen)

/-- The per-RID contribution considered by claim C6: the latest version's
key and aggregate values, dropped when the key is unreadable or out of
range. -/
def sumEntries (st : TState) (lo hi : Int) (c : Nat) (rids : List Rid) :
    List (Int × Int) :=
  rids.filterMap fun r =>
    (getColumnValue st (getLatestVersion st r) st.key).bind fun kv =>
      if lo ≤ kv ∧ kv ≤ hi then
        some (kv, (getColumnValue st (getLatestVersion st r) c).getD 0)
      else none

/-- Claim-side definition, following the words of claim C6: `false`
(`none`) when the range lookup finds no RIDs, otherwise the sum of the
latest version's aggregate-column value over the located records, counting
each distinct latest key value at most once and excluding records whose
latest key value no longer lies in the range (a null aggregate counts
as 0). -/
def sumSpec (st : TState) (lo hi : Int) (c : Nat) : Option Int :=
  match locateRange st lo hi with
  | [] => none
  | rids => some (((dedupFst (sumEntries st lo hi c rids) []).map fun e => e.2).sum)

/-- The `current_record` image `update` inherits unset columns from. -/
def priorImage (st : TState) (b : Rid) (baseRec : Record) : Record :=
  (pdGet st.page_directory (getLatestVersion st b)).getD baseRec

theorem update_success_inv (st : TState) (pk : Int) (cols : List (Option Int))
    (st' : TState) (b : Rid) (rest : List Rid)
    (hloc : locate st.index st.key pk = b :: rest)
    (h : update st pk cols = (true, st')) :
    ∃ bp baseRec tp okv,
      basePageAt st b.pr b.pg = some bp ∧
      pdGet st.page_directory b = some baseRec ∧
      tailPageAt (ensureTailCapacity st b.pr) b.pr (tailIdxAfter st b.pr) = some tp ∧
      baseRec.columns.get? st.key = some okv ∧
      canAppend tp st.num_columns = true ∧
      b.slot < bp.indirection.length ∧
      st'.num_columns = st.num_columns ∧
      st'.key = st.key ∧
      st'.page_ranges = (setBaseIndir (setTailPage (ensureTailCapacity st b.pr) b.pr
        (tailIdxAfter st b.pr)
        (appendRow tp
          (amendedTailRow st.num_columns st.key cols okv (priorImage st b baseRec).columns)
          (Indir.ptr (getLatestVersion st b)) (newTailRid st b tp)
          (schemaOf st.num_columns cols))) b (Indir.ptr (newTailRid st b tp))).page_ranges ∧
      (newKeyOf cols st.key pk = pk →
        st'.page_directory = pdSet st.page_directory (newTailRid st b tp)
          { rid := newTailRid st b tp, key := pk,
            columns := amendedTailRow st.num_columns st.key cols okv
              (priorImage st b baseRec).columns } ∧
        st'.index = st.index) ∧
      (newKeyOf cols st.key pk ≠ pk →
        st'.page_directory = pdDel (pdSet st.page_directory (newTailRid st b tp)
          { rid := newTailRid st b tp, key := pk,
            columns := amendedTailRow st.num_columns st.key cols okv
              (priorImage st b baseRec).columns }) (getLatestVersion st b)) := by
  have hg : updateGo st pk cols b = (true, st') := by
    unfold update at h
    rw [hloc] at h
    exact h
  clear h
  unfold updateGo at hg
  iterate 8
    (try dsimp only at hg
     split at hg <;> try exact absurd (congrArg Prod.fst hg) Bool.false_ne_true)
  rename_i hpr x1 bp st1 heqB x2 baseRec hpdB x3 tp st3 heqT hdrop x4 okv hokv hcan hslot
  obtain ⟨hbp, hst1⟩ := getPageSt_some _ _ _ _ heqB
  subst hst1
  obtain ⟨htp, hst3⟩ := getPageSt_some _ _ _ _ heqT
  subst hst3
  have hinv := updateCommit_inv _ _ _ _ _ _ _ _ _ hg
  refine ⟨bp, baseRec, tp, okv, hbp, hpdB, htp, hokv, hcan, hslot, ?_, ?_, ?_, ?_, ?_⟩
  · exact hinv.2.1
  · exact hinv.2.2.1
  · exact hinv.1
  · intro hk
    exact hinv.2.2.2.1 hk
  · intro hk
    exact (hinv.2.2.2.2 hk).1

/-- C1: for every successful `update(primary_key, *columns)` on a located
record with base RID `b`, the newly appended tail record's indirection
entry equals the RID that was the latest version immediately before the
update — the base's prior forward pointer, or `b` itself if the base had
none — and the base page's indirection slot of `b` equals the new tail
RID.  Hypotheses: the key index locates `b` first, the range's tail pages
are length-aligned, and the update returns true. -/
theorem update_relinks_chain (st : TState) (pk : Int) (cols : List (Option Int))
    (st' : TState) (b : Rid) (rest : List Rid)
    (hloc : locate st.index st.key pk = b :: rest)
    (halign : ∀ p ∈ tailsOf st b.pr, p.indirection.length = p.rids.length)
    (h : update st pk cols = (true, st')) :
    ∃ tr : Rid, tr.tail = true ∧
      baseIndirAt st' b = some (Indir.ptr tr) ∧
      (baseIndirAt st b = some Indir.nullv → indirAt st' tr = some (Indir.ptr b)) ∧
      (∀ p : Rid, baseIndirAt st b = some (Indir.ptr p) →
        indirAt st' tr = some (Indir.ptr p)) := by
  obtain ⟨bp, baseRec, tp, okv, hbp, hpd, htp, hokv, hcan, hslot, hnc, hkey, hrg, hpk, hnpk⟩ :=
    update_success_inv st pk cols st' b rest hloc h
  set tpIdx := tailIdxAfter st b.pr with htpIdx
  set tr := newTailRid st b tp with htr
  set latest := getLatestVersion st b with hlatest
  set row := amendedTailRow st.num_columns st.key cols okv (priorImage st b baseRec).columns with hrow
  set sch := schemaOf st.num_columns cols with hsch
  set E := ensureTailCapacity st b.pr with hE
  set S4 := setTailPage E b.pr tpIdx (appendRow tp row (Indir.ptr latest) tr sch) with hS4
  set S5 := setBaseIndir S4 b (Indir.ptr tr) with hS5
  -- base page of b in S4 is unchanged
  have hbase4 : basePageAt S4 b.pr b.pg = some bp := by
    rw [hS4, basePageAt_setTailPage, hE, basePageAt_ensureTail]
    exact hbp
  obtain ⟨R4, hR4, hbp4⟩ := basePageAt_inv _ _ _ _ hbase4
  have hbase5 : basePageAt S5 b.pr b.pg =
      some { bp with indirection := bp.indirection.set b.slot (Indir.ptr tr) } := by
    rw [hS5]
    exact basePageAt_setBaseIndir_self S4 b (Indir.ptr tr) R4 bp hR4 hbp4
  have hbst' : ∀ j k, basePageAt st' j k = basePageAt S5 j k := fun j k =>
    basePageAt_eq_of_ranges S5 st' hrg j k
  -- slot content exists
  obtain ⟨iv, hiv⟩ : ∃ v, bp.indirection.get? b.slot = some v := by
    cases hx : bp.indirection.get? b.slot with
    | none => exact absurd hslot (by simpa using List.get?_eq_none.mp hx)
    | some v => exact ⟨v, rfl⟩
  have hbir : baseIndirAt st' b = some (Indir.ptr tr) := by
    unfold baseIndirAt
    rw [hbst' b.pr b.pg, hbase5]
    show (bp.indirection.set b.slot (Indir.ptr tr)).get? b.slot = some (Indir.ptr tr)
    rw [get?_set_self, hiv]
    rfl
  -- the appended tail page in S4 / st'
  obtain ⟨RE, hRE, holdtp⟩ := tailPageAt_inv _ _ _ _ htp
  have htail4 : tailPageAt S4 b.pr tpIdx =
      some (appendRow tp row (Indir.ptr latest) tr sch) := by
    rw [hS4]
    exact tailPageAt_setTailPage_self E b.pr tpIdx _ RE tp hRE holdtp
  have htail' : tailPageAt st' b.pr tpIdx =
      some (appendRow tp row (Indir.ptr latest) tr sch) := by
    rw [tailPageAt_eq_of_ranges S5 st' hrg, hS5, tailPageAt_setBaseIndir]
    exact htail4
  -- alignment of tp
  have halignTp : tp.indirection.length = tp.rids.length := by
    rcases ensureTail_mem_or_fresh st b.pr tp tpIdx htp with ⟨R, hR, hmem⟩ | hfresh
    · exact halign tp (by unfold tailsOf; rw [hR]; exact hmem)
    · rw [hfresh]; rfl
  have hind : indirAt st' tr = some (Indir.ptr latest) := by
    have step : indirAt st' tr =
        (tailPageAt st' b.pr tpIdx).bind fun p => p.indirection.get? tp.rids.length := rfl
    rw [step, htail']
    show (tp.indirection ++ [Indir.ptr latest]).get? tp.rids.length = some (Indir.ptr latest)
    rw [← halignTp]
    exact get?_append_length _ _
  refine ⟨tr, rfl, hbir, ?_, ?_⟩
  · intro hnull
    have : latest = b := by
      rw [hlatest]
      unfold getLatestVersion
      unfold baseIndirAt at hnull
      rw [hbp] at hnull
      simp only [Option.some_bind] at hnull
      rw [hbp]
      show (match bp.indirection.get? b.slot with
        | some (Indir.ptr nxt) => nxt
        | some _ => b
        | none => b) = b
      rw [hnull]
    rw [← this]
    exact hind
  · intro p hptr
    have : latest = p := by
      rw [hlatest]
      unfold getLatestVersion
      unfold baseIndirAt at hptr
      rw [hbp] at hptr
      simp only [Option.some_bind] at hptr
      rw [hbp]
      show (match bp.indirection.get? b.slot with
        | some (Indir.ptr nxt) => nxt
        | some _ => b
        | none => b) = p
      rw [hptr]
    rw [← this]
    exact hind

theorem update_relinks_chain_witness :
    ∃ tr : Rid, tr.tail = true ∧
      baseIndirAt sc2 b0 = some (Indir.ptr tr) ∧
      (baseIndirAt sc1 b0 = some Indir.nullv → indirAt sc2 tr = some (Indir.ptr b0)) ∧
      (∀ p : Rid, baseIndirAt sc1 b0 = some (Indir.ptr p) →
        indirAt sc2 tr = some (Indir.ptr p)) :=
  update_relinks_chain sc1 100 [none, some 22, none] sc2 b0 []
    (by decide) (by decide) (by decide)

theorem canAppend_le (p : Page) (n : Nat) (h : canAppend p n = true) :
    n ≤ p.columns.length := by
  unfold canAppend at h
  rw [Bool.and_eq_true] at h
  exact of_decide_eq_true h.1

theorem pageAligned_of_tail (st : TState) (b : Rid) (tp : Page) (i : Nat)
    (halign : ∀ p ∈ tailsOf st b.pr, pageAligned p)
    (htp : tailPageAt (ensureTailCapacity st b.pr) b.pr i = some tp) :
    pageAligned tp := by
  rcases ensureTail_mem_or_fresh st b.pr tp i htp with ⟨R, hR, hmem⟩ | hfresh
  · exact halign tp (by unfold tailsOf; rw [hR]; exact hmem)
  · rw [hfresh]
    constructor
    · rfl
    · intro c hc
      have := List.eq_of_mem_replicate hc
      rw [this]
      rfl

theorem update_digest (st : TState) (pk : Int) (cols : List (Option Int))
    (st' : TState) (b : Rid) (rest : List Rid)
    (hloc : locate st.index st.key pk = b :: rest)
    (h : update st pk cols = (true, st')) :
    ∃ bp baseRec tp okv,
      basePageAt st b.pr b.pg = some bp ∧
      pdGet st.page_directory b = some baseRec ∧
      tailPageAt (ensureTailCapacity st b.pr) b.pr (tailIdxAfter st b.pr) = some tp ∧
      baseRec.columns.get? st.key = some okv ∧
      canAppend tp st.num_columns = true ∧
      b.slot < bp.indirection.length ∧
      st'.num_columns = st.num_columns ∧
      st'.key = st.key ∧
      basePageAt st' b.pr b.pg =
        some { bp with indirection := bp.indirection.set b.slot (Indir.ptr (newTailRid st b tp)) } ∧
      (∀ j k, ¬ (j = b.pr ∧ k = b.pg) → basePageAt st' j k = basePageAt st j k) ∧
      tailPageAt st' b.pr (tailIdxAfter st b.pr) =
        some (appendRow tp
          (amendedTailRow st.num_columns st.key cols okv (priorImage st b baseRec).columns)
          (Indir.ptr (getLatestVersion st b)) (newTailRid st b tp)
          (schemaOf st.num_columns cols)) ∧
      (newKeyOf cols st.key pk = pk →
        st'.page_directory = pdSet st.page_directory (newTailRid st b tp)
          { rid := newTailRid st b tp, key := pk,
            columns := amendedTailRow st.num_columns st.key cols okv
              (priorImage st b baseRec).columns } ∧
        st'.index = st.index) ∧
      (newKeyOf cols st.key pk ≠ pk →
        st'.page_directory = pdDel (pdSet st.page_directory (newTailRid st b tp)
          { rid := newTailRid st b tp, key := pk,
            columns := amendedTailRow st.num_columns st.key cols okv
              (priorImage st b baseRec).columns }) (getLatestVersion st b)) := by
  obtain ⟨bp, baseRec, tp, okv, hbp, hpd, htp, hokv, hcan, hslot, hnc, hkey, hrg, hpk, hnpk⟩ :=
    update_success_inv st pk cols st' b rest hloc h
  set tpIdx := tailIdxAfter st b.pr with htpIdx
  set tr := newTailRid st b tp with htr
  set latest := getLatestVersion st b with hlatest
  set row := amendedTailRow st.num_columns st.key cols okv (priorImage st b baseRec).columns
    with hrow
  set sch := schemaOf st.num_columns cols with hsch
  set E := ensureTailCapacity st b.pr with hE
  set S4 := setTailPage E b.pr tpIdx (appendRow tp row (Indir.ptr latest) tr sch) with hS4
  set S5 := setBaseIndir S4 b (Indir.ptr tr) with hS5
  have hbase4 : basePageAt S4 b.pr b.pg = some bp := by
    rw [hS4, basePageAt_setTailPage, hE, basePageAt_ensureTail]
    exact hbp
  obtain ⟨R4, hR4, hbp4⟩ := basePageAt_inv _ _ _ _ hbase4
  have hbase5 : basePageAt S5 b.pr b.pg =
      some { bp with indirection := bp.indirection.set b.slot (Indir.ptr tr) } := by
    rw [hS5]
    exact basePageAt_setBaseIndir_self S4 b (Indir.ptr tr) R4 bp hR4 hbp4
  have hbst' : ∀ j k, basePageAt st' j k = basePageAt S5 j k := fun j k =>
    basePageAt_eq_of_ranges S5 st' hrg j k
  obtain ⟨RE, hRE, holdtp⟩ := tailPageAt_inv _ _ _ _ htp
  have htail4 : tailPageAt S4 b.pr tpIdx =
      some (appendRow tp row (Indir.ptr latest) tr sch) := by
    rw [hS4]
    exact tailPageAt_setTailPage_self E b.pr tpIdx _ RE tp hRE holdtp
  have htail' : tailPageAt st' b.pr tpIdx =
      some (appendRow tp row (Indir.ptr latest) tr sch) := by
    rw [tailPageAt_eq_of_ranges S5 st' hrg, hS5, tailPageAt_setBaseIndir]
    exact htail4
  refine ⟨bp, baseRec, tp, okv, hbp, hpd, htp, hokv, hcan, hslot, hnc, hkey, ?_, ?_, htail',
    hpk, hnpk⟩
  · rw [hbst' b.pr b.pg]
    exact hbase5
  · intro j k hjk
    rw [hbst' j k, hS5, basePageAt_setBaseIndir_ne _ _ _ _ _ hjk, hS4,
      basePageAt_setTailPage, hE, basePageAt_ensureTail]

/-- C4 (amended): for every successful `update(primary_key, *columns)`,
the appended tail row is a complete image built per column `c` as: the
original base key for the primary key column always; otherwise the
supplied value when non-null; otherwise the value inherited from the prior
latest image's column `c` (0 when that image lacks the column). -/
theorem update_tail_row_amended (st : TState) (pk : Int) (cols : List (Option Int))
    (st' : TState) (b : Rid) (rest : List Rid)
    (hloc : locate st.index st.key pk = b :: rest)
    (halign : ∀ p ∈ tailsOf st b.pr, pageAligned p)
    (h : update st pk cols = (true, st')) :
    ∃ (tr : Rid) (baseRec : Record) (okv : Int),
      pdGet st.page_directory b = some baseRec ∧
      baseRec.columns.get? st.key = some okv ∧
      tr.tail = true ∧
      baseIndirAt st' b = some (Indir.ptr tr) ∧
      ∀ i, i < st.num_columns →
        getColumnValue st' tr i =
          (amendedTailRow st.num_columns st.key cols okv
            (priorImage st b baseRec).columns).get? i := by
  obtain ⟨bp, baseRec, tp, okv, hbp, hpd, htp, hokv, hcan, hslot, hnc, hkey, hb5, hother,
    htail', hpk, hnpk⟩ := update_digest st pk cols st' b rest hloc h
  set tr := newTailRid st b tp with htr
  set row := amendedTailRow st.num_columns st.key cols okv (priorImage st b baseRec).columns
    with hrow
  have halignTp : pageAligned tp := pageAligned_of_tail st b tp _ halign htp
  refine ⟨tr, baseRec, okv, hpd, hokv, rfl, ?_, ?_⟩
  · unfold baseIndirAt
    rw [hb5]
    show (bp.indirection.set b.slot (Indir.ptr tr)).get? b.slot = some (Indir.ptr tr)
    obtain ⟨iv, hiv⟩ : ∃ v, bp.indirection.get? b.slot = some v := by
      cases hx : bp.indirection.get? b.slot with
      | none => exact absurd hslot (by simpa using List.get?_eq_none.mp hx)
      | some v => exact ⟨v, rfl⟩
    rw [get?_set_self, hiv]
    rfl
  · intro i hi
    have hiC : i < tp.columns.length := Nat.lt_of_lt_of_le hi (canAppend_le tp _ hcan)
    have hc : tp.columns.get? i = some (tp.columns.get ⟨i, hiC⟩) := List.get?_eq_get hiC
    have hlenrow : row.length = st.num_columns := by
      rw [hrow]
      unfold amendedTailRow
      simp
    have hiR : i < row.length := by rw [hlenrow]; exact hi
    have hv : row.get? i = some (row.get ⟨i, hiR⟩) := List.get?_eq_get hiR
    have hcl : (tp.columns.get ⟨i, hiC⟩).length = tp.rids.length :=
      halignTp.2 _ (List.get?_mem hc)
    have step : getColumnValue st' tr i =
        (tailPageAt st' b.pr (tailIdxAfter st b.pr)).bind
          (fun p => (p.columns.get? i).bind fun col => col.get? tp.rids.length) := rfl
    rw [step, htail']
    show ((appendCols tp.columns row).get? i).bind (fun col => col.get? tp.rids.length) =
      row.get? i
    rw [appendCols_get? tp.columns row i _ _ hc hv]
    show (tp.columns.get ⟨i, hiC⟩ ++ [row.get ⟨i, hiR⟩]).get? tp.rids.length = row.get? i
    rw [← hcl, get?_append_length, hv]

def sc4cex : TState := (update sc1 100 [some 200, none, none]).2

/-- C4 counterexample: the claim as stated (supplied value first for every
column, including the primary key column) fails on
`update(100, 200, None, None)` after `insert(100, 11, 12)`: the stored
tail row is `[100, 11, 12]`, not the claimed `[200, 11, 12]`. -/
theorem update_key_column_cex :
    (update sc1 100 [some 200, none, none]).1 = true ∧
    (pdGet sc4cex.page_directory t1).map (fun r => r.columns) = some [100, 11, 12] ∧
    getColumnValue sc4cex t1 0 = some 100 ∧
    claimTailRow 3 0 [some 200, none, none] 100 [100, 11, 12] = [200, 11, 12] ∧
    ([100, 11, 12] : List Int) ≠ [200, 11, 12] := by decide

theorem update_tail_row_amended_witness :
    ∃ (tr : Rid) (baseRec : Record) (okv : Int),
      pdGet sc1.page_directory b0 = some baseRec ∧
      baseRec.columns.get? sc1.key = some okv ∧
      tr.tail = true ∧
      baseIndirAt sc2 b0 = some (Indir.ptr tr) ∧
      ∀ i, i < sc1.num_columns →
        getColumnValue sc2 tr i =
          (amendedTailRow sc1.num_columns sc1.key [none, some 22, none] okv
            (priorImage sc1 b0 baseRec).columns).get? i :=
  update_tail_row_amended sc1 100 [none, some 22, none] sc2 b0 []
    (by decide) (by decide) (by decide)

theorem find?_pdSet (pd : List (Rid × Record)) (r : Rid) (rec : Record)
    (P : Rid × Record → Bool) (hall : ∀ q ∈ pd, P q = false) (hP : P (r, rec) = true) :
    (pdSet pd r rec).find? P = some (r, rec) := by
  unfold pdSet
  split
  · rename_i hany
    rw [List.find?_map]
    have hsome : (pd.find? ((P ∘ fun p : Rid × Record =>
        if p.1 = r then (r, rec) else p))).isSome := by
      rw [List.find?_isSome]
      obtain ⟨q, hq, hqr⟩ := List.any_eq_true.mp hany
      refine ⟨q, hq, ?_⟩
      have : q.1 = r := of_decide_eq_true hqr
      simp [Function.comp, this, hP]
    obtain ⟨q0, hq0⟩ := Option.isSome_iff_exists.mp hsome
    have hq0P := List.find?_some hq0
    have hq0mem := List.mem_of_find?_eq_some hq0
    have hq0r : q0.1 = r := by
      by_contra hne
      rw [Function.comp_apply, if_neg hne] at hq0P
      rw [hall q0 hq0mem] at hq0P
      exact Bool.false_ne_true hq0P
    rw [hq0]
    simp [hq0r]
  · rw [List.find?_append]
    have hnone : pd.find? P = none := by
      rw [List.find?_eq_none]
      intro x hx hPx
      rw [hall x hx] at hPx
      exact Bool.false_ne_true hPx
    rw [hnone]
    simp [hP]

theorem select_version_cons (st : TState) (skey : Int) (sidx : Nat) (proj : List Nat)
    (v : Int) (r0 : Rid) (rest : List Rid)
    (hl : locate st.index sidx skey = r0 :: rest) :
    select_version st skey sidx proj v =
      (match svBody st skey proj v (((r0 :: rest).filter fun r => r.tail = false).headD r0) with
       | Except.ok l => l
       | Except.error _ =>
          [{ rid := ((r0 :: rest).filter fun r => r.tail = false).headD r0, key := skey,
             columns := svFallback skey sidx proj }]) := by
  unfold select_version
  rw [hl]

theorem optAt_map_some (vals : List Int) (i : Nat) :
    optAt (vals.map some) i = vals.get? i := by
  unfold optAt
  rw [List.get?_map]
  cases vals.get? i <;> rfl

theorem amendedTailRow_length (n keyIdx : Nat) (cols : List (Option Int)) (bk : Int)
    (prior : List Int) : (amendedTailRow n keyIdx cols bk prior).length = n := by
  unfold amendedTailRow
  simp

/-- C7 (amended): a successful non-key-changing `update(k, *columns)`
leaves the base image unchanged — `select_version(k, key_col, proj, -1)`
returns the same base record before and after, and the only base-page
mutation is the indirection slot — and when the record has no prior tail
versions, after `update(k, row)` supplying every column with the key
unchanged, `select_version(k, key_col, proj, 0)` equals the provided
row. -/
theorem update_frame_amended (st : TState) (pk : Int) (cols : List (Option Int))
    (st' : TState) (b : Rid) (rest : List Rid)
    (hloc : locate st.index st.key pk = b :: rest)
    (hbase : b.tail = false)
    (hnk : newKeyOf cols st.key pk = pk)
    (h : update st pk cols = (true, st')) :
    ∃ (tr : Rid) (baseRec : Record),
      tr.tail = true ∧
      pdGet st.page_directory b = some baseRec ∧
      (∀ proj, select_version st' pk st.key proj (-1) = [baseRec] ∧
        select_version st pk st.key proj (-1) = [baseRec]) ∧
      (∃ bp, basePageAt st b.pr b.pg = some bp ∧
        basePageAt st' b.pr b.pg =
          some { bp with indirection := bp.indirection.set b.slot (Indir.ptr tr) } ∧
        (∀ j k, ¬ (j = b.pr ∧ k = b.pg) → basePageAt st' j k = basePageAt st j k)) ∧
      (∀ (proj : List Nat) (vals : List Int),
        cols = vals.map some →
        vals.length = st.num_columns →
        vals.get? st.key = some pk →
        baseRec.columns.get? st.key = some pk →
        (∀ q ∈ st.page_directory, ¬ (q.2.key = pk ∧ q.1.tail = true)) →
        proj.length ≤ st.num_columns →
        select_version st' pk st.key proj 0 =
          [{ rid := tr, key := pk,
             columns := proj.enum.filterMap fun w =>
               if w.2 = 1 then vals.get? w.1 else none }]) := by
  obtain ⟨bp, baseRec, tp, okv, hbp, hpd, htp, hokv, hcan, hslot, hnc, hkey, hb5, hother,
    htail', hpk, hnpk⟩ := update_digest st pk cols st' b rest hloc h
  obtain ⟨hpd', hidx'⟩ := hpk hnk
  set tr := newTailRid st b tp with htr
  set row := amendedTailRow st.num_columns st.key cols okv (priorImage st b baseRec).columns
    with hrow
  have htrtail : tr.tail = true := rfl
  have htrb : b ≠ tr := by
    intro hbt
    rw [hbt, htrtail] at hbase
    exact absurd hbase (by decide)
  have hloc' : locate st'.index st.key pk = b :: rest := by rw [hidx']; exact hloc
  have hhead : ((b :: rest).filter fun r => r.tail = false).headD b = b := by
    simp [List.filter_cons, hbase]
  have hpdb' : pdGet st'.page_directory b = some baseRec := by
    rw [hpd', pdGet_pdSet_ne _ _ _ _ htrb]
    exact hpd
  refine ⟨tr, baseRec, htrtail, hpd, ?_, ⟨bp, hbp, hb5, hother⟩, ?_⟩
  · intro proj
    constructor
    · rw [select_version_cons st' pk st.key proj (-1) b rest hloc', hhead]
      have hb : svBody st' pk proj (-1) b = Except.ok [baseRec] := by
        unfold svBody
        rw [if_pos rfl, hpdb']
      rw [hb]
    · rw [select_version_cons st pk st.key proj (-1) b rest hloc, hhead]
      have hb : svBody st pk proj (-1) b = Except.ok [baseRec] := by
        unfold svBody
        rw [if_pos rfl, hpd]
      rw [hb]
  · intro proj vals hcols hvlen hvkey hbk hnotails hproj
    have hokpk : okv = pk := by
      rw [hokv] at hbk
      exact Option.some.inj hbk
    have hrowlen : row.length = st.num_columns := by
      rw [hrow]
      exact amendedTailRow_length _ _ _ _ _
    have hrowvals : ∀ i, i < proj.length → row.get? i = vals.get? i := by
      intro i hi
      have hin : i < st.num_columns := Nat.lt_of_lt_of_le hi hproj
      rw [hrow]
      unfold amendedTailRow
      rw [List.get?_map, List.get?_range hin]
      dsimp only [Option.map]
      by_cases hik : i = st.key
      · rw [if_pos hik, hokpk, hik, hvkey]
      · rw [if_neg hik, hcols, optAt_map_some]
        have hiv : i < vals.length := by rw [hvlen]; exact hin
        obtain ⟨v, hv⟩ : ∃ v, vals.get? i = some v := ⟨_, List.get?_eq_get hiv⟩
        rw [hv]
    rw [select_version_cons st' pk st.key proj 0 b rest hloc', hhead]
    have hfind : st'.page_directory.find?
        (fun p => decide (p.2.key = pk ∧ p.1.tail = true)) =
        some (tr, { rid := tr, key := pk, columns := row }) := by
      rw [hpd']
      apply find?_pdSet
      · intro q hq
        exact decide_eq_false (hnotails q hq)
      · exact decide_eq_true ⟨rfl, rfl⟩
    have hanyf : proj.enum.any (fun w => decide (w.2 = 1 ∧
        ({ rid := tr, key := pk, columns := row } : Record).columns.length ≤ w.1)) = false := by
      rw [List.any_eq_false]
      intro w hw hwP
      obtain ⟨-, hle⟩ := of_decide_eq_true hwP
      have hget := List.mem_enum_iff_getElem?.mp hw
      obtain ⟨hlt, -⟩ := List.getElem?_eq_some.mp hget
      have : w.1 < st.num_columns := Nat.lt_of_lt_of_le hlt hproj
      dsimp only at hle
      rw [hrowlen] at hle
      omega
    have hb : svBody st' pk proj 0 b = Except.ok
        [{ rid := tr, key := pk, columns := proj.enum.filterMap fun w =>
            if w.2 = 1 then row.get? w.1 else none }] := by
      unfold svBody
      rw [if_neg (by decide : ¬ (0 : Int) = -1), if_pos rfl, hfind]
      show (if (proj.enum.any fun w => decide (w.2 = 1 ∧
          ({ rid := tr, key := pk, columns := row } : Record).columns.length ≤ w.1)) = true
        then Except.error () else Except.ok _) = _
      rw [hanyf]
      rfl
    rw [hb]
    have hcong : (proj.enum.filterMap fun w => if w.2 = 1 then row.get? w.1 else none) =
        proj.enum.filterMap fun w => if w.2 = 1 then vals.get? w.1 else none := by
      apply List.filterMap_congr
      intro w hw
      have hget := List.mem_enum_iff_getElem?.mp hw
      obtain ⟨hlt, -⟩ := List.getElem?_eq_some.mp hget
      rw [hrowvals w.1 hlt]
    rw [hcong]

/-- State after the same-values update `update(100, 100, 22, 12)` on S1. -/
def scW : TState := (update sc1 100 [some 100, some 22, some 12]).2

theorem update_frame_amended_witness :
    ∃ (tr : Rid) (baseRec : Record),
      tr.tail = true ∧
      pdGet sc1.page_directory b0 = some baseRec ∧
      (∀ proj, select_version scW 100 sc1.key proj (-1) = [baseRec] ∧
        select_version sc1 100 sc1.key proj (-1) = [baseRec]) ∧
      (∃ bp, basePageAt sc1 b0.pr b0.pg = some bp ∧
        basePageAt scW b0.pr b0.pg =
          some { bp with indirection := bp.indirection.set b0.slot (Indir.ptr tr) } ∧
        (∀ j k, ¬ (j = b0.pr ∧ k = b0.pg) → basePageAt scW j k = basePageAt sc1 j k)) ∧
      (∀ (proj : List Nat) (vals : List Int),
        ([some 100, some 22, some 12] : List (Option Int)) = vals.map some →
        vals.length = sc1.num_columns →
        vals.get? sc1.key = some 100 →
        baseRec.columns.get? sc1.key = some 100 →
        (∀ q ∈ sc1.page_directory, ¬ (q.2.key = 100 ∧ q.1.tail = true)) →
        proj.length ≤ sc1.num_columns →
        select_version scW 100 sc1.key proj 0 =
          [{ rid := tr, key := 100,
             columns := proj.enum.filterMap fun w =>
               if w.2 = 1 then vals.get? w.1 else none }]) :=
  update_frame_amended sc1 100 [some 100, some 22, some 12] scW b0 []
    (by decide) (by decide) (by decide) (by decide)

/-- State for the C7 counterexample: two real updates then a same-values
update of the latest image. -/
def sc7cex : TState := (update sc3 100 [some 100, some 33, some 12]).2

/-- C7 counterexample: after `insert(100,11,12)`, `update(100,None,22,None)`
and `update(100,None,33,None)`, the same-values update
`update(100, 100, 33, 12)` succeeds but `select_version(100,0,[1,1,1],0)`
returns `[100, 22, 12]`, not the provided row `[100, 33, 12]`, because the
version-0 page-directory scan stops at the earliest tail entry. -/
theorem update_same_values_cex :
    (update sc3 100 [some 100, some 33, some 12]).1 = true ∧
    ((select_version sc7cex 100 0 [1, 1, 1] 0).map fun r => r.columns) = [[100, 22, 12]] ∧
    ([[100, 22, 12]] : List (List Int)) ≠ [[100, 33, 12]] := by decide

theorem find?_delete_bucket (bs : List (Int × List Rid)) (v : Int) (r : Rid) :
    ((((bs.map fun b => if b.1 = v then (b.1, b.2.filter fun x => x ≠ r) else b).find?
        fun b => b.1 = v).map fun b => b.2).getD []) =
      ((((bs.find? fun b => b.1 = v).map fun b => b.2).getD []).filter fun x => x ≠ r) := by
  induction bs with
  | nil => rfl
  | cons e es ih =>
    by_cases he : e.1 = v
    · simp [List.find?_cons, he]
    · simpa [List.find?_cons, he] using ih

theorem locate_indexDelete_self (idx : Index) (c : Nat) (v : Int) (r : Rid) :
    locate (indexDelete idx c v r) c v = (locate idx c v).filter fun x => x ≠ r := by
  unfold locate indexDelete
  rw [get?_modifyNth, if_pos rfl]
  cases hb : idx.get? c with
  | none => rfl
  | some bs =>
    dsimp only [Option.map]
    exact find?_delete_bucket bs v r

/-- C5: `delete(primary_key)` returns false when the key index has no RID
for the key; on a successful delete of the sole located base RID it writes
the tombstone into the base page's indirection slot, removes the RID from
the page directory and the key from the key index, so that `locate` is
empty afterwards and the base record's indirection terminal is the
tombstone. -/
theorem delete_spec :
    (∀ (st : TState) (pk : Int), locate st.index st.key pk = [] →
      delete st pk = (false, st)) ∧
    (∀ (st : TState) (pk : Int) (b : Rid) (R : PageRange) (bp : Page),
      locate st.index st.key pk = [b] →
      st.page_ranges.get? b.pr = some R →
      R.base_pages.get? b.pg = some bp →
      b.slot < bp.indirection.length →
      (delete st pk).1 = true ∧
      baseIndirAt (delete st pk).2 b = some Indir.empty ∧
      pdGet (delete st pk).2.page_directory b = none ∧
      locate (delete st pk).2.index st.key pk = []) := by
  constructor
  · intro st pk h
    unfold delete
    rw [h]
  · intro st pk b R bp hloc hR hbp hslot
    have hd : delete st pk =
        (true, { setBaseIndir st b Indir.empty with
          page_directory := pdDel st.page_directory b,
          index := indexDelete st.index st.key pk b }) := by
      unfold delete
      simp only [hloc, hR, hbp]
      rw [if_pos hslot]
      rfl
    rw [hd]
    refine ⟨rfl, ?_, ?_, ?_⟩
    · unfold baseIndirAt
      have hb5 : basePageAt { setBaseIndir st b Indir.empty with
          page_directory := pdDel st.page_directory b,
          index := indexDelete st.index st.key pk b } b.pr b.pg =
          some { bp with indirection := bp.indirection.set b.slot Indir.empty } := by
        have := basePageAt_setBaseIndir_self st b Indir.empty R bp hR hbp
        exact this
      rw [hb5]
      show (bp.indirection.set b.slot Indir.empty).get? b.slot = some Indir.empty
      obtain ⟨iv, hiv⟩ : ∃ v, bp.indirection.get? b.slot = some v := by
        cases hx : bp.indirection.get? b.slot with
        | none => exact absurd hslot (by simpa using List.get?_eq_none.mp hx)
        | some v => exact ⟨v, rfl⟩
      rw [get?_set_self, hiv]
      rfl
    · exact pdGet_pdDel_self st.page_directory b
    · show locate (indexDelete st.index st.key pk b) st.key pk = []
      rw [locate_indexDelete_self, hloc]
      simp

theorem delete_spec_witness :
    (delete sc1 100).1 = true ∧
    baseIndirAt (delete sc1 100).2 b0 = some Indir.empty ∧
    pdGet (delete sc1 100).2.page_directory b0 = none ∧
    locate (delete sc1 100).2.index sc1.key 100 = [] :=
  delete_spec.2 sc1 100 b0
    (sc1.page_ranges.headD { base_pages := [], tail_pages := [] })
    ((sc1.page_ranges.headD { base_pages := [], tail_pages := [] }).base_pages.headD
      (freshPage 3))
    (by decide) (by decide) (by decide) (by decide)

theorem sumLoop_eq_dedup (st : TState) (lo hi : Int) (c : Nat) :
    ∀ (rids : List Rid) (acc : Int) (seen : List Int),
      sumLoop st lo hi c rids acc seen =
        acc + ((dedupFst (sumEntries st lo hi c rids) seen).map fun e => e.2).sum := by
  intro rids
  induction rids with
  | nil =>
    intro acc seen
    simp [sumLoop, sumEntries, dedupFst]
  | cons r rs ih =>
    intro acc seen
    cases hk : getColumnValue st (getLatestVersion st r) st.key with
    | none =>
      have h1 : sumLoop st lo hi c (r :: rs) acc seen = sumLoop st lo hi c rs acc seen := by
        simp only [sumLoop, hk]
      have h2 : sumEntries st lo hi c (r :: rs) = sumEntries st lo hi c rs := by
        simp only [sumEntries, List.filterMap_cons, hk, Option.none_bind]
      rw [h1, h2]
      exact ih acc seen
    | some kv =>
      by_cases hin : lo ≤ kv ∧ kv ≤ hi
      · have h2 : sumEntries st lo hi c (r :: rs) =
            (kv, (getColumnValue st (getLatestVersion st r) c).getD 0) ::
              sumEntries st lo hi c rs := by
          simp only [sumEntries, List.filterMap_cons, hk, Option.some_bind, if_pos hin]
        by_cases hseen : kv ∈ seen
        · have h1 : sumLoop st lo hi c (r :: rs) acc seen =
              sumLoop st lo hi c rs acc seen := by
            simp only [sumLoop, hk]
            rw [if_pos (Or.inr (Or.inr hseen))]
          have h3 : dedupFst ((kv, (getColumnValue st (getLatestVersion st r) c).getD 0) ::
              sumEntries st lo hi c rs) seen = dedupFst (sumEntries st lo hi c rs) seen := by
            show (if kv ∈ seen then dedupFst (sumEntries st lo hi c rs) seen else _) = _
            rw [if_pos hseen]
          rw [h1, h2, h3]
          exact ih acc seen
        · have hguard : ¬ (kv < lo ∨ hi < kv ∨ kv ∈ seen) := by
            push_neg
            exact ⟨by omega, by omega, hseen⟩
          have h1 : sumLoop st lo hi c (r :: rs) acc seen =
              sumLoop st lo hi c rs
                (acc + (getColumnValue st (getLatestVersion st r) c).getD 0)
                (kv :: seen) := by
            simp only [sumLoop, hk]
            rw [if_neg hguard]
          have h3 : dedupFst ((kv, (getColumnValue st (getLatestVersion st r) c).getD 0) ::
              sumEntries st lo hi c rs) seen =
              (kv, (getColumnValue st (getLatestVersion st r) c).getD 0) ::
                dedupFst (sumEntries st lo hi c rs) (kv :: seen) := by
            show (if kv ∈ seen then _ else (kv, _) :: dedupFst _ (kv :: seen)) = _
            rw [if_neg hseen]
          rw [h1, h2, h3, ih]
          simp only [List.map_cons, List.sum_cons]
          omega
      · have hguard : kv < lo ∨ hi < kv ∨ kv ∈ seen := by
          rw [Decidable.not_and_iff_or_not] at hin
          rcases hin with h | h
          · exact Or.inl (by omega)
          · exact Or.inr (Or.inl (by omega))
        have h1 : sumLoop st lo hi c (r :: rs) acc seen = sumLoop st lo hi c rs acc seen := by
          simp only [sumLoop, hk]
          rw [if_pos hguard]
        have h2 : sumEntries st lo hi c (r :: rs) = sumEntries st lo hi c rs := by
          simp only [sumEntries, List.filterMap_cons, hk, Option.some_bind, if_neg hin]
        rw [h1, h2]
        exact ih acc seen

/-- C6: `sum(lo, hi, agg_col)` returns false (modelled `none`) exactly when
the key-column range lookup finds no RIDs, and otherwise the sum of the
latest version's aggregate-column value over the located records, counting
each distinct latest key value at most once, excluding records whose
latest key value no longer lies in the range, and counting a null
aggregate value as 0 — the claim-side description `sumSpec`. -/
theorem sum_matches_claim (st : TState) (lo hi : Int) (c : Nat) :
    sumQ st lo hi c = sumSpec st lo hi c := by
  unfold sumQ sumSpec
  cases hr : locateRange st lo hi with
  | nil => rfl
  | cons r rs =>
    show some (sumLoop st lo hi c (r :: rs) 0 []) = some _
    rw [sumLoop_eq_dedup st lo hi c (r :: rs) 0 []]
    rw [Int.zero_add]

theorem svBody_ok_singleton (st : TState) (skey : Int) (proj : List Nat) (v : Int)
    (b : Rid) (l : List Record) (h : svBody st skey proj v b = Except.ok l) :
    l.length = 1 := by
  unfold svBody at h
  split at h
  · split at h <;> (cases h; rfl)
  · split at h
    · split at h
      · split at h
        · exact Except.noConfusion h
        · cases h; rfl
      · cases h; rfl
    · split at h
      · exact Except.noConfusion h
      · cases h; rfl

/-- C10: whenever the index lookup of `select_version` returns at least one
RID, the returned list contains exactly one `Record`; when the internal
body raises, that record carries the first base RID, the search key, and
the fallback columns (the search key at the search-column position and 0
for every other projected column). -/
theorem select_version_singleton (st : TState) (skey : Int) (sidx : Nat)
    (proj : List Nat) (v : Int) (h : locate st.index sidx skey ≠ []) :
    (select_version st skey sidx proj v).length = 1 ∧
    (∀ r0 rest, locate st.index sidx skey = r0 :: rest →
      ∀ e, svBody st skey proj v (((r0 :: rest).filter fun r => r.tail = false).headD r0) =
          Except.error e →
        select_version st skey sidx proj v =
          [{ rid := ((r0 :: rest).filter fun r => r.tail = false).headD r0, key := skey,
             columns := svFallback skey sidx proj }]) := by
  cases hl : locate st.index sidx skey with
  | nil => exact absurd hl h
  | cons r0 rest =>
    constructor
    · rw [select_version_cons st skey sidx proj v r0 rest hl]
      cases hb : svBody st skey proj v
          (((r0 :: rest).filter fun r => r.tail = false).headD r0) with
      | ok l => exact svBody_ok_singleton st skey proj v _ l hb
      | error e => rfl
    · intro r0' rest' hl' e hberr
      obtain ⟨rfl, rfl⟩ : r0 = r0' ∧ rest = rest' := by
        cases hl'
        exact ⟨rfl, rfl⟩
      rw [select_version_cons st skey sidx proj v r0 rest hl, hberr]

theorem select_version_singleton_witness :
    (select_version sc1 100 0 [1, 1, 1] 0).length = 1 ∧
    (∀ r0 rest, locate sc1.index 0 100 = r0 :: rest →
      ∀ e, svBody sc1 100 [1, 1, 1] 0 (((r0 :: rest).filter fun r => r.tail = false).headD r0) =
          Except.error e →
        select_version sc1 100 0 [1, 1, 1] 0 =
          [{ rid := ((r0 :: rest).filter fun r => r.tail = false).headD r0, key := 100,
             columns := svFallback 100 0 [1, 1, 1] }]) :=
  select_version_singleton sc1 100 0 [1, 1, 1] 0 (by decide)

/-- C2 counterexample data and divergence: after three updates the code's
`select_version(100, 0, [1,1,1], -2)` materializes the base image
`[100, 11, 12]`, while the claim's walk-to-latest-then-step-back
resolution lands on the first tail record, whose image is `[100, 22, 12]`:
`_safely_get_latest_version` stops at the oldest tail, so the historical
walk immediately hits the base and clamps. -/
theorem select_version_step_back_cex :
    ((select_version sc4 100 0 [1, 1, 1] (-2)).map fun r => r.columns) = [[100, 11, 12]] ∧
    specStepBack sc4 b0 2 = t1 ∧
    projVals sc4 t1 [1, 1, 1] = [100, 22, 12] ∧
    ([[100, 11, 12]] : List (List Int)) ≠ [[100, 22, 12]] := by decide

/-- C3: the literal S3 scenario diverges from the spec.  After
`insert(100,11,12)` and updates to 22, 33, 44: version 0 yields
`[100, 22, 12]` (claim says `[100, 44, 12]`), version -1 yields
`[100, 11, 12]` (matching the claim), version -2 yields `[100, 11, 12]`
(claim says `[100, 33, 12]`). -/
theorem scenario_s3_cex :
    ((select_version sc4 100 0 [1, 1, 1] 0).map fun r => r.columns) = [[100, 22, 12]] ∧
    ((select_version sc4 100 0 [1, 1, 1] (-1)).map fun r => r.columns) = [[100, 11, 12]] ∧
    ((select_version sc4 100 0 [1, 1, 1] (-2)).map fun r => r.columns) = [[100, 11, 12]] := by
  decide

/-- C8: `insert` extracts `columns[self.table.key]` before its `try`
block, so an insert with fewer than `key + 1` columns propagates the
exception to the caller instead of returning false — here on a fresh
3-column table with key index 0 and an empty column list. -/
theorem insert_short_columns_raises : insert sc0 [] = Except.error () := rfl

/-- C9: the exception path of `update` unpins nothing.  On the S1 state,
`update(100, None, None, None, 7)` supplies a fourth non-null column, the
schema-encoding loop raises after both the base page and the tail page
were pinned, and the operation returns false with both pin counts left at
1 (they were 0 before). -/
theorem update_exception_pin_leak :
    (update sc1 100 [none, none, none, some 7]).1 = false ∧
    pinCount (update sc1 100 [none, none, none, some 7]).2
      { isBase := true, pr := 0, pg := 0 } = 1 ∧
    pinCount (update sc1 100 [none, none, none, some 7]).2
      { isBase := false, pr := 0, pg := 0 } = 1 ∧
    pinCount sc1 { isBase := true, pr := 0, pg := 0 } = 0 ∧
    pinCount sc1 { isBase := false, pr := 0, pg := 0 } = 0 := by decide

end LStore
